import Mathlib

/-!
# kargobot/download : a resumable, parallel HTTP downloader

A shallow embedding of `src/download/download.go`.

Modelling conventions

* Go `int` / `int64` values are `Int`; no value in the modelled code comes near
  the 64-bit bounds, so no wrap-around is modelled.
* The chunk size `int64(math.Ceil(float64(a) / float64(b)))` is computed as the
  program computes it, in IEEE 754 double precision: both conversions and the
  division round to 53 significant bits, to nearest with ties to even
  (`chunkSize`).  Only integer arithmetic is used to express this.  Overflow,
  subnormal numbers and the conversion of a value outside the `int64` range do
  not arise for operands that are `int64` values and are not modelled.
* A file's content is a list of bytes.  The file system is a map from paths to
  contents together with two fault oracles (paths that cannot be opened or
  created, and files whose reads fail after some number of bytes).
* The HTTP peer is a function from requests to either a transport error or a
  response.
* The goroutines started by `multiTreadDown` are executed one after the other in
  list order.  Each writes only its own temp file and the server is a function,
  so the order of execution does not change the outcome when temp file names
  are distinct.  The `sync.WaitGroup` is not modelled.
-/

namespace Download

/-! ## Bytes, files and the file system -/

/-- Content of a file or of a response body. -/
abbrev Bytes := List UInt8

/-- State of the file system as seen by the downloader. -/
structure FileSys where
  /-- Regular files: content at a path, `none` when no file is there. -/
  files : String → Option Bytes
  /-- Directories that exist. -/
  isDir : String → Bool
  /-- Paths on which `os.Open`, `os.OpenFile`, `os.Create` and `os.MkdirAll`
  fail (permission denied, missing parent, ...). -/
  locked : String → Bool
  /-- Files whose reads fail: `some n` means a read error occurs after `n`
  bytes have been delivered. -/
  readFault : String → Option Nat

namespace FileSys

/-- Replace the content found at `path`. -/
def setFile (fs : FileSys) (path : String) (c : Option Bytes) : FileSys :=
  { fs with files := fun q => if q = path then c else fs.files q }

/-- Result of `os.Stat(path)` on a file: its size when `err == nil`. -/
def stat (fs : FileSys) (path : String) : Option Nat :=
  (fs.files path).map List.length

/-- The call `os.Create(path)`: create or truncate; `none` when it fails. -/
def create (fs : FileSys) (path : String) : Option FileSys :=
  if fs.locked path then none else some (fs.setFile path (some []))

/-- The call `os.OpenFile(path, os.O_RDWR, perm)` or `os.Open(path)`: the file
must exist and be accessible; the result is its current content. -/
def openExisting (fs : FileSys) (path : String) : Option Bytes :=
  if fs.locked path then none else fs.files path

/-- The call `os.OpenFile(path, os.O_CREATE|os.O_WRONLY, perm)`: the file is
created empty when absent and is left as it is when present (no `O_TRUNC`). -/
def openCreate (fs : FileSys) (path : String) : Option FileSys :=
  if fs.locked path then none
  else match fs.files path with
    | some _ => some fs
    | none => some (fs.setFile path (some []))

/-- Write `b` into the file at `path` starting at byte offset `off`,
overwriting what is there and extending the file when needed. -/
def writeAt (fs : FileSys) (path : String) (off : Nat) (b : Bytes) : FileSys :=
  let c := (fs.files path).getD []
  fs.setFile path (some (c.take off ++ b ++ c.drop (off + b.length)))

/-- What `io.Copy(dst, f)` reads from the open file `f`: the bytes delivered
and whether the read ended in an error. -/
def readAll (fs : FileSys) (path : String) (content : Bytes) : Bytes × Bool :=
  match fs.readFault path with
  | some n => (content.take n, true)
  | none => (content, false)

/-- The call `os.Remove(path)`; its error is ignored by the caller. -/
def remove (fs : FileSys) (path : String) : FileSys :=
  fs.setFile path none

/-- Run deferred `os.Remove` calls; the list is in execution order. -/
def removeAll (fs : FileSys) : List String → FileSys
  | [] => fs
  | p :: ps => (fs.remove p).removeAll ps

/-- The call `os.MkdirAll(path, perm)`. -/
def mkdirAll (fs : FileSys) (path : String) : Option FileSys :=
  if fs.locked path then none
  else some { fs with isDir := fun q => if q = path then true else fs.isDir q }

end FileSys

/-! ## HTTP -/

/-- Request methods used by the downloader. -/
inductive Method where
  | HEAD
  | GET
  deriving DecidableEq, Repr

/-- An outgoing request; `range = some (a, b)` stands for the header
`Range: bytes=a-b`. -/
structure Request where
  method : Method
  url : String
  range : Option (Int × Int)
  deriving DecidableEq

/-- A response: status code, the `Accept-Ranges` header (empty when absent),
the `Content-Length` header as parsed by `strconv.ParseInt` (`none` when absent
or not a number) and the body. -/
structure Response where
  status : Int
  acceptRanges : String
  contentLength : Option Int
  body : Bytes

/-- The remote peer: `http.NewRequest` followed by `Client.Do`; `.error` is a
failure of either call. -/
abbrev Server := Request → Except String Response

/-! ## Data model of the downloader -/

/-- A shard of the resource (`type shard struct`). -/
structure shard where
  FileName : String
  Index : Int
  From : Int
  To : Int
  Size : Int
  deriving DecidableEq

/-- A download job (`type packageInfo struct`); the wait group is omitted. -/
structure packageInfo where
  Url : String
  FileName : String
  Dir : String
  Length : Int
  Threads : Int
  Shards : List shard

/-- What the process gets from its runtime and operating system. -/
structure Env where
  /-- Value of `runtime.NumCPU()`. -/
  numCPU : Nat
  /-- Value of `os.Getwd()`. -/
  wd : String
  /-- The function `filepath.Abs`. -/
  absPath : String → String

/-- The package variable `Processer = runtime.NumCPU() / 2`. -/
def Processer (env : Env) : Int := (env.numCPU : Int) / 2

/-! ## Path helpers of the Go standard library -/

/-- Go's `path.Base`. -/
def pathBase (p : String) : String :=
  if p = "" then "."
  else
    let r := p.toList.reverse.dropWhile (fun c => c == '/')
    let last := r.takeWhile (fun c => c != '/')
    if last = [] then "/" else String.mk last.reverse

/-- Go's `strings.TrimRight(dir, "/")`. -/
def trimRightSlash (dir : String) : String :=
  String.mk (dir.toList.reverse.dropWhile (fun c => c == '/')).reverse

/-- Go's `strings.HasPrefix`. -/
def hasPrefix (s pre : String) : Bool := pre.toList.isPrefixOf s.toList

/-- Go's `strings.HasSuffix`. -/
def hasSuffix (s suf : String) : Bool := suf.toList.isSuffixOf s.toList

/-! ## Construction and configuration of a job -/

/-- Method `SetDir`. -/
def packageInfo.SetDir (env : Env) (p : packageInfo) (dir : String) : packageInfo :=
  if dir = "" then { p with Dir := env.wd }
  else
    let dir1 := if hasSuffix dir "/" then trimRightSlash dir else dir
    let dir2 :=
      if !(hasPrefix dir1 "/") then
        if hasPrefix dir1 "./" || hasPrefix dir1 "../" then env.absPath dir1
        else env.wd ++ "/" ++ dir1
      else dir1
    { p with Dir := dir2 }

/-- Function `New`; `dir` is the variadic argument list. -/
def New (env : Env) (url : String) (dir : List String) : packageInfo :=
  let p : packageInfo :=
    { Url := url, FileName := pathBase url, Dir := "", Length := 0,
      Threads := Processer env, Shards := [] }
  let destDir := match dir with
    | [] => ""
    | d :: _ => d
  p.SetDir env destDir

/-- Method `GetPath`. -/
def packageInfo.GetPath (p : packageInfo) : String := p.Dir ++ "/" ++ p.FileName

/-- Method `GetFileName`. -/
def packageInfo.GetFileName (p : packageInfo) : String := p.FileName

/-- Method `SetThread`. -/
def packageInfo.SetThread (env : Env) (p : packageInfo) (t : Int) : packageInfo :=
  let t1 := if t = 0 then Processer env else t
  { p with Threads := t1 }

/-! ## Shard planning (first loop of `multiTreadDown`) -/

/-- Position of the highest set bit of `n`, by halving at most `fuel` times. -/
def log2Fuel : Nat → Nat → Nat
  | 0, _ => 0
  | fuel + 1, n => if n < 2 then 0 else log2Fuel fuel (n / 2) + 1

/-- Binary exponent of a positive integer: the `e` with `2^e ≤ n < 2^(e+1)`. -/
def ilog2 (n : Nat) : Nat := log2Fuel n n

/-- The quotient `num / den` rounded to the nearest integer, ties to even. -/
def roundHalfEven (num den : Nat) : Nat :=
  let f := num / den
  let r := num % den
  if 2 * r < den then f
  else if den < 2 * r then f + 1
  else f + f % 2

/-- The conversion `float64(n)` of a non-negative integer: `n` rounded to 53
significant bits.  The result is again an integer. -/
def toFloat64 (n : Nat) : Nat :=
  roundHalfEven n (2 ^ (ilog2 n - 52)) * 2 ^ (ilog2 n - 52)

/-- A positive double given by a 53-bit significand and a power of two: the
value is `mant * 2^down / 2^up`. -/
structure F64Quot where
  mant : Nat
  up : Nat
  down : Nat

/-- The double-precision quotient `a / b` of two positive doubles with integer
values: with `e` the binary exponent of the exact quotient and `t = 52 - e`,
the significand is the exact quotient scaled by `2^t` and rounded. -/
def f64Div (a b : Nat) : F64Quot :=
  let t : Int := 52 - ((ilog2 a : Int) - (ilog2 b : Int)) +
    (if b * 2 ^ ilog2 a ≤ a * 2 ^ ilog2 b then 0 else 1)
  { mant := roundHalfEven (a * 2 ^ t.toNat) (b * 2 ^ (-t).toNat), up := t.toNat,
    down := (-t).toNat }

/-- The function `math.Ceil` on a positive double. -/
def F64Quot.ceil (q : F64Quot) : Nat := (q.mant * 2 ^ q.down + 2 ^ q.up - 1) / 2 ^ q.up

/-- The function `math.Floor` on a positive double. -/
def F64Quot.floor (q : F64Quot) : Nat := q.mant * 2 ^ q.down / 2 ^ q.up

/-- The value `int64(math.Ceil(float64(length) / float64(threads)))`.  For
`threads = 0` the quotient is infinite or not a number and its conversion is
left open by the language; the value 0 stands for it, and the program never
uses it, since the planning loop then runs zero times. -/
def chunkSize (length threads : Int) : Int :=
  if threads = 0 ∨ length = 0 then 0
  else if (0 < length ↔ 0 < threads) then
    ((f64Div (toFloat64 length.natAbs) (toFloat64 threads.natAbs)).ceil : Int)
  else
    -((f64Div (toFloat64 length.natAbs) (toFloat64 threads.natAbs)).floor : Int)

/-- Name of the temp file of shard `i`: `fmt.Sprintf("%s/.%s.%d", dir, "temp", i)`. -/
def tempName (dir : String) (i : Nat) : String := dir ++ "/.temp." ++ toString i

/-- The planning loop `for i := 0; i < p.Threads; i++` from iteration `i` on,
with `n` iterations left and `start` the current value of the variable
`start`.  The result lists the shards appended by these iterations. -/
def planLoop (dir : String) (length threads size : Int) : Nat → Nat → Int → List shard
  | 0, _, _ => []
  | n + 1, i, start =>
    let stop := if (i : Int) = threads - 1 then length - 1 else start + size - 1
    { FileName := tempName dir i, Index := i, From := start, To := stop,
      Size := stop - start + 1 } :: planLoop dir length threads size n (i + 1) (start + size)

/-- Shards appended to `p.Shards` by one run of the planning loop. -/
def planShards (p : packageInfo) : List shard :=
  planLoop p.Dir p.Length p.Threads (chunkSize p.Length p.Threads) p.Threads.toNat 0 0

/-! ## Fetching one shard -/

/-- Outcome of `shard.down`: the file system, the shard (the method has a
pointer receiver and may assign `s.From`), the requests sent and the error
returned (`none` for `nil`). -/
structure DownResult where
  fs : FileSys
  sh : shard
  sent : List Request
  err : Option String

/-- Method `shard.down`. -/
def shard.down (srv : Server) (fs : FileSys) (s : shard) (url : String) : DownResult :=
  let st := fs.stat s.FileName
  let isExist := st.isSome
  let s1 : shard := match st with
    | some size => if (size : Int) < s.Size then { s with From := s.From + size } else s
    | none => s
  let req : Request := { method := Method.GET, url := url, range := some (s1.From, s1.To) }
  match srv req with
  | .error e => { fs := fs, sh := s1, sent := [req], err := some e }
  | .ok resp =>
    if resp.status > 299 then
      { fs := fs, sh := s1, sent := [req], err := some "response code error" }
    else if isExist then
      match fs.openExisting s1.FileName with
      | none => { fs := fs, sh := s1, sent := [req], err := some "open failed" }
      | some content =>
        -- f.Seek(0, io.SeekEnd), then io.Copy(f, resp.Body)
        { fs := fs.writeAt s1.FileName content.length resp.body, sh := s1, sent := [req],
          err := none }
    else
      match fs.create s1.FileName with
      | none => { fs := fs, sh := s1, sent := [req], err := some "create failed" }
      | some fs1 =>
        { fs := fs1.writeAt s1.FileName 0 resp.body, sh := s1, sent := [req], err := none }

/-- Outcome of the fan-out loop of `multiTreadDown`: the file system, the
shards after the workers ran, all requests sent, and the error each worker
returned (the `go` statement discards these). -/
structure FanOut where
  fs : FileSys
  shards : List shard
  sent : List Request
  errs : List (Option String)

/-- The loop `for _, shard := range p.Shards { go shard.down(p.Url, p.WG) }`
followed by `p.WG.Wait()`. -/
def downAll (srv : Server) (url : String) : FileSys → List shard → FanOut
  | fs, [] => { fs := fs, shards := [], sent := [], errs := [] }
  | fs, s :: rest =>
    let r := s.down srv fs url
    let o := downAll srv url r.fs rest
    { fs := o.fs, shards := r.sh :: o.shards, sent := r.sent ++ o.sent,
      errs := r.err :: o.errs }

/-! ## Merging -/

/-- The loop of `merge` over the shards still to be copied.  `off` is the write
offset of the destination handle and `deferred` holds the registered
`defer os.Remove(v.FileName)` calls, latest first; they run when `merge`
returns, whatever it returns. -/
def mergeLoop (dest : String) : FileSys → Nat → List String → List shard →
    FileSys × Option String
  | fs, _, deferred, [] => (fs.removeAll deferred, none)
  | fs, off, deferred, v :: vs =>
    match fs.openExisting v.FileName with
    | none => (fs.removeAll deferred, some "open failed")
    | some content =>
      let rd := fs.readAll v.FileName content
      let fs1 := fs.writeAt dest off rd.1
      if rd.2 then (fs1.removeAll deferred, some "copy failed")
      else if (rd.1.length : Int) ≠ v.Size then
        (fs1.removeAll deferred, some "file size failure")
      else mergeLoop dest fs1 (off + rd.1.length) (v.FileName :: deferred) vs

/-- Method `merge`. -/
def packageInfo.merge (p : packageInfo) (fs : FileSys) : FileSys × Option String :=
  let fp := p.Dir ++ "/" ++ p.FileName
  match fs.openCreate fp with
  | none => (fs, some "open failed")
  | some fs1 => mergeLoop fp fs1 0 [] p.Shards

/-! ## Capability probe, single-stream download and the entry point -/

/-- Method `AcceptRages`: the job (its `Length` may be assigned), the result
`accept` and the error. -/
def packageInfo.AcceptRages (srv : Server) (p : packageInfo) :
    packageInfo × Bool × Option String :=
  match srv { method := Method.HEAD, url := p.Url, range := none } with
  | .error e => (p, false, some e)
  | .ok resp =>
    if resp.status ≠ 200 then (p, false, some "response code")
    else if resp.acceptRanges ≠ "bytes" then (p, false, none)
    else match resp.contentLength with
      | none => (p, true, some "parse error")
      | some length => ({ p with Length := length }, true, none)

/-- Method `multiTreadDown`. -/
def packageInfo.multiTreadDown (srv : Server) (p : packageInfo) (fs : FileSys) :
    FileSys × packageInfo × Option String :=
  -- os.Stat(p.Dir), then os.MkdirAll when nothing is there
  let dirStep : Option FileSys :=
    if fs.isDir p.Dir || (fs.files p.Dir).isSome then some fs else fs.mkdirAll p.Dir
  match dirStep with
  | none => (fs, p, some "mkdir failed")
  | some fs1 =>
    let p1 : packageInfo := { p with Shards := p.Shards ++ planShards p }
    let o := downAll srv p1.Url fs1 p1.Shards
    let p2 : packageInfo := { p1 with Shards := o.shards }
    let m := p2.merge o.fs
    (m.1, p2, m.2)

/-- Method `sigleDown`; the file is created at the relative path `p.FileName`,
which the operating system resolves against the working directory.  The copy
through the buffered reader and writer is modelled as transferring the whole
body; the response status is not inspected. -/
def packageInfo.sigleDown (env : Env) (srv : Server) (p : packageInfo) (fs : FileSys) :
    FileSys × Option String :=
  match srv { method := Method.GET, url := p.Url, range := none } with
  | .error e => (fs, some e)
  | .ok resp =>
    let target := env.wd ++ "/" ++ p.FileName
    match fs.create target with
    | none => (fs, some "create failed")
    | some fs1 => (fs1.writeAt target 0 resp.body, none)

/-- Method `Download`; the values returned by `multiTreadDown` and `sigleDown`
are discarded by the caller, as in the source. -/
def packageInfo.Download (env : Env) (srv : Server) (p : packageInfo) (fs : FileSys) :
    FileSys × packageInfo × Option String :=
  match p.AcceptRages srv with
  | (p1, _, some e) => (fs, p1, some e)
  | (p1, accept, none) =>
    if accept then
      let r := p1.multiTreadDown srv fs
      (r.1, r.2.1, none)
    else
      let r := p1.sigleDown env srv fs
      (r.1, p1, none)

/-! ## Concrete environments used to run the model -/

/-- Bytes `a..b` (inclusive) of a resource. -/
def slice (res : Bytes) (a b : Int) : Bytes :=
  (res.drop a.toNat).take (b - a + 1).toNat

/-- A file system with no files, no directories and no faults. -/
def emptyFs : FileSys :=
  { files := fun _ => none, isDir := fun _ => false, locked := fun _ => false,
    readFault := fun _ => none }

/-- A server holding one resource that honours range requests: `HEAD` reports
`Accept-Ranges: bytes` and the length, a ranged `GET` answers 206 with exactly
the requested bytes (416 when the range is not satisfiable), a plain `GET`
answers 200 with the whole resource. -/
def rangeServer (res : Bytes) : Server := fun req =>
  match req.method, req.range with
  | Method.HEAD, _ =>
    .ok { status := 200, acceptRanges := "bytes", contentLength := some res.length, body := [] }
  | Method.GET, none =>
    .ok { status := 200, acceptRanges := "bytes", contentLength := some res.length, body := res }
  | Method.GET, some (a, b) =>
    if 0 ≤ a ∧ a ≤ b ∧ a < res.length then
      .ok { status := 206, acceptRanges := "bytes",
            contentLength := some (slice res a b).length, body := slice res a b }
    else
      .ok { status := 416, acceptRanges := "bytes", contentLength := some 0, body := [] }

/-- A server without range support: `HEAD` answers 200 without `Accept-Ranges`
and every `GET` answers 200 with the whole resource. -/
def plainServer (res : Bytes) : Server := fun req =>
  match req.method with
  | Method.HEAD =>
    .ok { status := 200, acceptRanges := "", contentLength := some res.length, body := [] }
  | Method.GET =>
    .ok { status := 200, acceptRanges := "", contentLength := some res.length, body := res }

/-- A server without range support whose connection breaks on every `GET`. -/
def brokenGetServer : Server := fun req =>
  match req.method with
  | Method.HEAD => .ok { status := 200, acceptRanges := "", contentLength := none, body := [] }
  | Method.GET => .error "connection reset"

/-- A range-capable server that refuses every `GET` with status 500. -/
def refusingServer (len : Int) : Server := fun req =>
  match req.method with
  | Method.HEAD =>
    .ok { status := 200, acceptRanges := "bytes", contentLength := some len, body := [] }
  | Method.GET => .ok { status := 500, acceptRanges := "", contentLength := none, body := [] }

/-- A machine with `n` CPUs running the program in `/home/u`. -/
def envWith (n : Nat) : Env := { numCPU := n, wd := "/home/u", absPath := fun d => d }

/-- A job with the given length and thread count, destination `/d/f`. -/
def jobOf (length threads : Int) : packageInfo :=
  { Url := "http://h/f", FileName := "f", Dir := "/d", Length := length, Threads := threads,
    Shards := [] }

/-- A resource of ten bytes. -/
def tenBytes : Bytes := [0, 1, 2, 3, 4, 5, 6, 7, 8, 9]

/-- The shard for bytes 4..9 of a resource. -/
def tailShard : shard := ⟨"/d/.temp.1", 1, 4, 9, 6⟩

/-- The shard for the whole ten-byte resource. -/
def wholeShard : shard := ⟨"/d/.temp.0", 0, 0, 9, 10⟩

/-- A file system where the temp file of `wholeShard` holds the first 4 bytes. -/
def partialFs : FileSys := emptyFs.setFile "/d/.temp.0" (some [0, 1, 2, 3])

/-- Three planned shards of two bytes each. -/
def threeShards : List shard :=
  [⟨"/d/.temp.0", 0, 0, 1, 2⟩, ⟨"/d/.temp.1", 1, 2, 3, 2⟩, ⟨"/d/.temp.2", 2, 4, 5, 2⟩]

/-- A file system where the temp file of the middle shard is one byte short. -/
def shortMiddleFs : FileSys :=
  ((emptyFs.setFile "/d/.temp.0" (some [1, 2])).setFile "/d/.temp.1" (some [3])).setFile
    "/d/.temp.2" (some [5, 6])

/-- A file system where all three temp files are complete and the destination
`/d/f` cannot be opened. -/
def lockedDestFs : FileSys :=
  { files := fun q =>
      if q = "/d/.temp.0" then some [1, 2]
      else if q = "/d/.temp.1" then some [3, 4]
      else if q = "/d/.temp.2" then some [5, 6]
      else none,
    isDir := fun _ => false,
    locked := fun q => q = "/d/f",
    readFault := fun _ => none }

/-! ## Notions used to state the properties -/

/-- The spec's chunk size `ceil(a / b)`: the exact ceiling of the quotient, for
a positive divisor. -/
def ceilDiv (a b : Int) : Int := -((-a) / b)

/-- The shard that the planning loop builds in iteration `j`, in closed form. -/
def plannedShard (dir : String) (length threads size : Int) (j : Nat) : shard :=
  { FileName := tempName dir j, Index := j, From := j * size,
    To := if (j : Int) = threads - 1 then length - 1 else j * size + size - 1,
    Size := (if (j : Int) = threads - 1 then length - 1 else j * size + size - 1) - j * size + 1 }

/-- A server that answers `Range: bytes=a-b` on `url` with exactly bytes `a..b`
of the resource `res`, for every range inside the resource. -/
def ServesRanges (srv : Server) (url : String) (res : Bytes) : Prop :=
  ∀ a b : Int, 0 ≤ a → a ≤ b → b < res.length →
    ∃ resp, srv { method := Method.GET, url := url, range := some (a, b) } = .ok resp ∧
      resp.status ≤ 299 ∧ resp.body = slice res a b

/-- The bytes `merge` copies from the temp file of `v` into the destination. -/
def delivered (fs : FileSys) (v : shard) : Bytes :=
  match fs.openExisting v.FileName with
  | none => []
  | some c => (fs.readAll v.FileName c).1

/-- The shard `v` passes the checks of `merge`: its temp file can be opened,
the copy ends without error and the number of bytes copied is `v.Size`. -/
def mergeAccepts (fs : FileSys) (v : shard) : Bool :=
  match fs.openExisting v.FileName with
  | none => false
  | some c =>
    !(fs.readAll v.FileName c).2 && decide (((fs.readAll v.FileName c).1.length : Int) = v.Size)

/-- Content of a file holding `old` after `new` was written at offset 0
without truncation. -/
def overlay (old new : Bytes) : Bytes := new ++ old.drop new.length

/-! ## The planner -/

/-- The planning loop, started at iteration `i` with `start = i * size`, builds
the shards given by the closed form. -/
theorem planLoop_eq_map (dir : String) (length threads size : Int) :
    ∀ (n i : Nat) (start : Int), start = i * size →
      planLoop dir length threads size n i start =
        (List.range n).map (fun j => plannedShard dir length threads size (i + j)) := by
  intro n
  induction n with
  | zero => intro i start _; rfl
  | succ n ih =>
    intro i start hstart
    rw [planLoop, List.range_succ_eq_map, List.map_cons, List.map_map,
      ih (i + 1) (start + size) (by rw [hstart]; push_cast; ring)]
    congr 1
    · simp [plannedShard, hstart]
    · apply List.map_congr_left
      intro j _
      simp only [Function.comp, Nat.succ_eq_add_one]
      congr 1
      omega

/-- The planned shards are the closed-form shards of the indices below `Threads`. -/
theorem planShards_eq_map (p : packageInfo) :
    planShards p = (List.range p.Threads.toNat).map
      (plannedShard p.Dir p.Length p.Threads (chunkSize p.Length p.Threads)) := by
  unfold planShards
  rw [planLoop_eq_map _ _ _ _ _ 0 0 (by simp)]
  apply List.map_congr_left
  intro j _
  simp

/-- Membership in the planned shards. -/
theorem mem_planShards (p : packageInfo) (s : shard) :
    s ∈ planShards p ↔ ∃ j : Nat, (j : Int) < p.Threads ∧
      s = plannedShard p.Dir p.Length p.Threads (chunkSize p.Length p.Threads) j := by
  rw [planShards_eq_map, List.mem_map]
  constructor
  · rintro ⟨j, hj, rfl⟩
    exact ⟨j, by have := List.mem_range.mp hj; omega, rfl⟩
  · rintro ⟨j, hj, rfl⟩
    exact ⟨j, List.mem_range.mpr (by omega), rfl⟩

/-- The chunk size is at least 1 for a non-empty resource. -/
theorem ceilDiv_pos (a b : Int) (ha : 1 ≤ a) (hb : 1 ≤ b) : 1 ≤ ceilDiv a b := by
  unfold ceilDiv
  have h : (-a) / b < 0 := Int.ediv_lt_of_lt_mul (by omega) (by omega)
  omega

/-- The chunks together are at least as long as the resource. -/
theorem ceilDiv_mul_ge (a b : Int) (hb : 1 ≤ b) : a ≤ ceilDiv a b * b := by
  unfold ceilDiv
  have h := Int.ediv_mul_le (-a) (show b ≠ 0 by omega)
  linarith

/-- One byte less per chunk would not cover the resource. -/
theorem ceilDiv_lt (a b : Int) (hb : 1 ≤ b) : (ceilDiv a b - 1) * b < a := by
  unfold ceilDiv
  have h := Int.lt_ediv_add_one_mul_self (-a) (show 0 < b by omega)
  linarith

/-- The integer ceiling division is the ceiling of the rational quotient. -/
theorem ceilDiv_eq_ceil (a b : Int) (hb : 1 ≤ b) : ceilDiv a b = ⌈(a : ℚ) / (b : ℚ)⌉ := by
  symm
  rw [Int.ceil_eq_iff]
  have hbq : (0 : ℚ) < b := by exact_mod_cast (show (0 : Int) < b by omega)
  have h1 := ceilDiv_mul_ge a b hb
  have h2 := ceilDiv_lt a b hb
  constructor
  · rw [lt_div_iff₀ hbq]
    exact_mod_cast h2
  · rw [div_le_iff₀ hbq]
    exact_mod_cast h1

/-- With enough fuel the halving loop finds the binary exponent. -/
theorem log2Fuel_spec : ∀ (fuel n : Nat), n ≤ fuel → n ≠ 0 →
    2 ^ log2Fuel fuel n ≤ n ∧ n < 2 ^ (log2Fuel fuel n + 1) := by
  intro fuel
  induction fuel with
  | zero =>
    intro n h h0
    omega
  | succ fuel ih =>
    intro n h h0
    rw [log2Fuel]
    by_cases h2 : n < 2
    · rw [if_pos h2]
      simp only [pow_zero, zero_add, pow_one]
      omega
    · rw [if_neg h2]
      have hih := ih (n / 2) (by omega) (by omega)
      constructor
      · rw [pow_succ]
        have := (Nat.le_div_iff_mul_le (by norm_num : 0 < 2)).mp hih.1
        exact this
      · rw [pow_succ]
        exact (Nat.div_lt_iff_lt_mul (by norm_num : 0 < 2)).mp hih.2

/-- The binary exponent brackets the number between two powers of two. -/
theorem ilog2_spec (n : Nat) (h : n ≠ 0) : 2 ^ ilog2 n ≤ n ∧ n < 2 ^ (ilog2 n + 1) :=
  log2Fuel_spec n n (Nat.le_refl n) h

/-- A number below `2^k` has binary exponent below `k`. -/
theorem ilog2_lt_of_lt_pow (n k : Nat) (h : n < 2 ^ k) (h0 : n ≠ 0) : ilog2 n < k := by
  have h1 := (ilog2_spec n h0).1
  exact (Nat.pow_lt_pow_iff_right (by norm_num : 1 < 2)).mp (Nat.lt_of_le_of_lt h1 h)

/-- Rounding does not go below the floor. -/
theorem roundHalfEven_ge (num den : Nat) : num / den ≤ roundHalfEven num den := by
  unfold roundHalfEven
  simp only []
  split
  · exact Nat.le_refl _
  · split <;> omega

/-- Rounding does not go above the floor plus one. -/
theorem roundHalfEven_le (num den : Nat) : roundHalfEven num den ≤ num / den + 1 := by
  unfold roundHalfEven
  simp only []
  split
  · omega
  · split <;> omega

/-- Rounding down happens only when the remainder is at most one half. -/
theorem roundHalfEven_eq_floor (num den : Nat) (h : roundHalfEven num den = num / den) :
    2 * (num % den) ≤ den := by
  unfold roundHalfEven at h
  simp only [] at h
  split at h
  · omega
  · split at h <;> omega

/-- An exact quotient is not changed by rounding. -/
theorem roundHalfEven_of_dvd (num den : Nat) (hden : 0 < den) (h : num % den = 0) :
    roundHalfEven num den = num / den := by
  unfold roundHalfEven
  simp only [h]
  rw [if_pos (by omega)]

/-- Integers up to 2^53 are doubles: the conversion is exact. -/
theorem toFloat64_of_le (n : Nat) (h : n ≤ 2 ^ 53) : toFloat64 n = n := by
  rcases Nat.eq_or_lt_of_le h with h | h
  · subst h
    decide
  · have hs : ilog2 n - 52 = 0 := by
      by_cases h0 : n = 0
      · subst h0
        decide
      · have := ilog2_lt_of_lt_pow n 53 h h0
        omega
    unfold toFloat64
    rw [hs, pow_zero, roundHalfEven_of_dvd n 1 (by norm_num) (Nat.mod_one n)]
    simp

/-- Core of the exactness argument: a quotient scaled to at least 52 bits and
rounded to the nearest integer has the same ceiling as the quotient, when the
dividend is below 2^53. -/
theorem ceil_round_exact (a b U : Nat) (hb : 0 < b) (hU : 0 < U) (ha : a < 2 ^ 53)
    (hN : 2 ^ 52 * b ≤ a * U) :
    (roundHalfEven (a * U) b + U - 1) / U = (a + b - 1) / b := by
  have hdm := Nat.div_add_mod a b
  have hr := Nat.mod_lt a hb
  generalize hn : a / b = n at hdm
  generalize hr0 : a % b = r0 at hdm hr
  by_cases hz : r0 = 0
  · subst hz
    have ha' : a = b * n := by omega
    have hmul : a * U = b * (n * U) := by rw [ha']; ring
    have hmod : a * U % b = 0 := by rw [hmul]; exact Nat.mul_mod_right _ _
    have hdiv : a * U / b = n * U := by rw [hmul]; exact Nat.mul_div_cancel_left _ hb
    rw [roundHalfEven_of_dvd _ _ hb hmod, hdiv]
    have h1 : (n * U + U - 1) / U = n := by
      have : n * U + U - 1 = (U - 1) + U * n := by
        have := Nat.mul_comm n U
        omega
      rw [this, Nat.add_mul_div_left _ _ hU, Nat.div_eq_of_lt (by omega)]
      omega
    have h2 : (a + b - 1) / b = n := by
      have : a + b - 1 = (b - 1) + b * n := by omega
      rw [this, Nat.add_mul_div_left _ _ hb, Nat.div_eq_of_lt (by omega)]
      omega
    rw [h1, h2]
  · have h2 : (a + b - 1) / b = n + 1 := by
      have : a + b - 1 = (r0 - 1) + b * (n + 1) := by
        have : b * (n + 1) = b * n + b := by ring
        omega
      rw [this, Nat.add_mul_div_left _ _ hb, Nat.div_eq_of_lt (by omega)]
      omega
    have hfl : n * U ≤ a * U / b := by
      rw [Nat.le_div_iff_mul_le hb]
      have : n * U * b = (b * n) * U := by ring
      rw [this]
      exact Nat.mul_le_mul_right U (by omega)
    have hfu : a * U / b < (n + 1) * U := by
      rw [Nat.div_lt_iff_lt_mul hb]
      have : (n + 1) * U * b = (b * n + b) * U := by ring
      rw [this]
      exact Nat.mul_lt_mul_of_pos_right (by omega) hU
    have hge := roundHalfEven_ge (a * U) b
    have hle := roundHalfEven_le (a * U) b
    have hgt : n * U < roundHalfEven (a * U) b := by
      by_contra hcon
      have hm : roundHalfEven (a * U) b = n * U := by omega
      have hf : a * U / b = n * U := by omega
      have hhalf := roundHalfEven_eq_floor (a * U) b (by rw [hm, hf])
      have hdm' := Nat.div_add_mod (a * U) b
      rw [hf] at hdm'
      have haU : a * U = b * (n * U) + r0 * U := by
        have : a * U = (b * n + r0) * U := by rw [hdm]
        rw [this]; ring
      have hrem : a * U % b = r0 * U := by omega
      rw [hrem] at hhalf
      have hr1 : 1 * U ≤ r0 * U := Nat.mul_le_mul_right U (by omega)
      have h2U : 2 * U ≤ b := by omega
      have h3 : 2 ^ 52 * (2 * U) ≤ a * U := Nat.le_trans (Nat.mul_le_mul_left _ h2U) hN
      have h4 : 2 ^ 53 * U ≤ a * U := by
        have : 2 ^ 52 * (2 * U) = 2 ^ 53 * U := by ring
        rw [← this]; exact h3
      have h5 : 2 ^ 53 ≤ a := Nat.le_of_mul_le_mul_right h4 hU
      omega
    generalize roundHalfEven (a * U) b = m at hge hle hgt
    have hmle : m ≤ (n + 1) * U := by omega
    have hexp : (n + 1) * U = n * U + U := by ring
    have : m + U - 1 = (m - n * U - 1) + U * (n + 1) := by
      have : U * (n + 1) = n * U + U := by ring
      omega
    rw [h2, this, Nat.add_mul_div_left _ _ hU, Nat.div_eq_of_lt (by omega)]
    omega

/-- For a dividend below 2^53 the ceiling of the double-precision quotient is
the ceiling of the exact quotient. -/
theorem f64Div_ceil_exact (a b : Nat) (ha0 : 0 < a) (ha : a < 2 ^ 53) (hb : 0 < b) :
    (f64Div a b).ceil = (a + b - 1) / b := by
  have hla := ilog2_lt_of_lt_pow a 53 ha (by omega)
  have hsa := ilog2_spec a (by omega)
  have hsb := ilog2_spec b (by omega)
  unfold F64Quot.ceil f64Div
  simp only []
  generalize hla' : ilog2 a = la at *
  generalize hlb' : ilog2 b = lb at *
  obtain ⟨k, hk⟩ : ∃ k, la + k = 52 := ⟨52 - la, by omega⟩
  by_cases htest : b * 2 ^ la ≤ a * 2 ^ lb
  · rw [if_pos htest]
    have ht : (52 - ((la : Int) - (lb : Int)) + 0) = ((k + lb : Nat) : Int) := by
      push_cast; omega
    rw [ht]
    simp only [Int.toNat_ofNat, Int.toNat_neg_nat, pow_zero, Nat.mul_one]
    apply ceil_round_exact a b _ hb (Nat.pos_pow_of_pos _ (by norm_num)) ha
    calc 2 ^ 52 * b = (b * 2 ^ la) * 2 ^ k := by rw [← hk, pow_add]; ring
      _ ≤ (a * 2 ^ lb) * 2 ^ k := Nat.mul_le_mul_right _ htest
      _ = a * 2 ^ (k + lb) := by rw [pow_add]; ring
  · rw [if_neg htest]
    have ht : (52 - ((la : Int) - (lb : Int)) + 1) = ((k + lb + 1 : Nat) : Int) := by
      push_cast; omega
    rw [ht]
    simp only [Int.toNat_ofNat, Int.toNat_neg_nat, pow_zero, Nat.mul_one]
    apply ceil_round_exact a b _ hb (Nat.pos_pow_of_pos _ (by norm_num)) ha
    calc 2 ^ 52 * b ≤ 2 ^ 52 * 2 ^ (lb + 1) := Nat.mul_le_mul_left _ (Nat.le_of_lt hsb.2)
      _ = 2 ^ la * 2 ^ (k + lb + 1) := by
        rw [← hk]; simp only [pow_add]; ring
      _ ≤ a * 2 ^ (k + lb + 1) := Nat.mul_le_mul_right _ hsa.1

/-- The ceiling division on naturals, in its usual form. -/
theorem ceilDiv_natCast (a b : Nat) (hb : 0 < b) :
    ceilDiv (a : Int) (b : Int) = (((a + b - 1) / b : Nat) : Int) := by
  have hbi : (0 : Int) < b := by exact_mod_cast hb
  have h1 : (((a + b - 1) / b : Nat) : Int) = ((a : Int) + b - 1) / b := by
    rw [Int.natCast_div]
    congr 1
    omega
  rw [h1]
  unfold ceilDiv
  have e1 := Int.ediv_mul_le (-(a : Int)) (show (b : Int) ≠ 0 by omega)
  have e2 := Int.lt_ediv_add_one_mul_self (-(a : Int)) hbi
  have e3 := Int.ediv_mul_le ((a : Int) + b - 1) (show (b : Int) ≠ 0 by omega)
  have e4 := Int.lt_ediv_add_one_mul_self ((a : Int) + b - 1) hbi
  generalize (-(a : Int)) / b = x at *
  generalize ((a : Int) + b - 1) / b = y at *
  have h5 : (-x - 1) * (b : Int) < (y + 1) * b := by nlinarith
  have h6 : (y - 1) * (b : Int) < (-x) * b := by nlinarith
  have h7 : -x - 1 < y + 1 := lt_of_mul_lt_mul_right h5 (le_of_lt hbi)
  have h8 : y - 1 < -x := lt_of_mul_lt_mul_right h6 (le_of_lt hbi)
  -- sharpen: both sides are integers within one of each other
  have h9 : (-x) * (b : Int) < (y + 1) * b := by nlinarith
  have h10 : -x < y + 1 := lt_of_mul_lt_mul_right h9 (le_of_lt hbi)
  omega

/-- For 1 ≤ length < 2^53 and 1 ≤ threads ≤ 2^53 the chunk size computed by the
program is the exact ceiling of length / threads. -/
theorem chunkSize_eq_ceilDiv (length threads : Int) (hL : 1 ≤ length) (hLb : length < 2 ^ 53)
    (hT : 1 ≤ threads) (hTb : threads ≤ 2 ^ 53) :
    chunkSize length threads = ceilDiv length threads := by
  obtain ⟨a, rfl⟩ := Int.eq_ofNat_of_zero_le (show 0 ≤ length by omega)
  obtain ⟨b, rfl⟩ := Int.eq_ofNat_of_zero_le (show 0 ≤ threads by omega)
  have ha : a < 2 ^ 53 := by exact_mod_cast hLb
  have hb : b ≤ 2 ^ 53 := by exact_mod_cast hTb
  have ha0 : 0 < a := by omega
  have hb0 : 0 < b := by omega
  unfold chunkSize
  rw [if_neg (by omega), if_pos (by constructor <;> intro _ <;> omega)]
  simp only [Int.natAbs_ofNat]
  rw [toFloat64_of_le a (Nat.le_of_lt ha), toFloat64_of_le b hb, f64Div_ceil_exact a b ha0 ha hb0,
    ceilDiv_natCast a b hb0]

/-- Above 2^53 the conversion to double loses the last bit: for a resource of
2^53 + 1 bytes and 2 threads the program computes the chunk size 2^52, while
the exact ceiling is 2^52 + 1. -/
theorem chunkSize_inexact_above :
    chunkSize (2 ^ 53 + 1) 2 = 2 ^ 52 ∧ ceilDiv (2 ^ 53 + 1) 2 = 2 ^ 52 + 1 := by
  decide

/-- C1 (amended): for 1 <= totalLength < 2^53 and concurrency >= 1 such that
the first concurrency-1 chunks of size ceil(totalLength / concurrency) fit in
the resource, the planned shards have indices 0..concurrency-1 in order, the union
of their ranges is exactly [0, totalLength-1], each shard ends before the next
one starts, and every shard but the last has the uniform chunk size. -/
theorem C1_plan_partitions_when_chunks_fit (p : packageInfo)
    (hL : 1 ≤ p.Length) (hLb : p.Length < 2 ^ 53) (hT : 1 ≤ p.Threads)
    (hfit : (p.Threads - 1) * ceilDiv p.Length p.Threads ≤ p.Length) :
    (planShards p).map shard.Index = (List.range p.Threads.toNat).map Int.ofNat ∧
    (∀ b : Int, (∃ s ∈ planShards p, s.From ≤ b ∧ b ≤ s.To) ↔ (0 ≤ b ∧ b ≤ p.Length - 1)) ∧
    (planShards p).Pairwise (fun s t => s.Index < t.Index ∧ s.To < t.From) ∧
    (∀ s ∈ planShards p, s.Index ≠ p.Threads - 1 → s.Size = ceilDiv p.Length p.Threads) := by
  have hsz : 1 ≤ ceilDiv p.Length p.Threads := ceilDiv_pos _ _ hL hT
  have hTb : p.Threads ≤ 2 ^ 53 := by
    have h1 : (p.Threads - 1) * 1 ≤ (p.Threads - 1) * ceilDiv p.Length p.Threads :=
      Int.mul_le_mul_of_nonneg_left hsz (by omega)
    omega
  have hcs : chunkSize p.Length p.Threads = ceilDiv p.Length p.Threads :=
    chunkSize_eq_ceilDiv _ _ hL hLb hT hTb
  generalize hc : ceilDiv p.Length p.Threads = size at hfit hsz hcs
  refine ⟨?_, ?_, ?_, ?_⟩
  · rw [planShards_eq_map, hcs, List.map_map]
    apply List.map_congr_left
    intro j _
    rfl
  · intro b
    constructor
    · rintro ⟨s, hs, hlo, hhi⟩
      obtain ⟨j, hj, rfl⟩ := (mem_planShards p s).mp hs
      rw [hcs] at hlo hhi
      simp only [plannedShard] at hlo hhi
      have hj0 : (0 : Int) ≤ j := Int.ofNat_nonneg j
      have hjs : 0 ≤ (j : Int) * size := Int.mul_nonneg hj0 (by omega)
      refine ⟨by omega, ?_⟩
      by_cases hlast : (j : Int) = p.Threads - 1
      · rw [if_pos hlast] at hhi
        exact hhi
      · rw [if_neg hlast] at hhi
        have h1 : ((j : Int) + 1) * size ≤ (p.Threads - 1) * size :=
          Int.mul_le_mul_of_nonneg_right (by omega) (by omega)
        have h2 : ((j : Int) + 1) * size = j * size + size := by ring
        omega
    · rintro ⟨hb0, hb1⟩
      by_cases hin : b < (p.Threads - 1) * size
      · -- an inner shard
        have hq0 : 0 ≤ b / size := Int.ediv_nonneg hb0 (by omega)
        have hqlt : b / size < p.Threads - 1 :=
          Int.ediv_lt_of_lt_mul (by omega) hin
        have hlow : b / size * size ≤ b := Int.ediv_mul_le b (by omega)
        have hup : b < (b / size + 1) * size := Int.lt_ediv_add_one_mul_self b (by omega)
        have hup' : (b / size + 1) * size = b / size * size + size := by ring
        refine ⟨plannedShard p.Dir p.Length p.Threads size (b / size).toNat, ?_, ?_, ?_⟩
        · rw [mem_planShards, hcs]
          exact ⟨(b / size).toNat, by omega, rfl⟩
        · simp only [plannedShard]
          rw [Int.toNat_of_nonneg hq0]
          exact hlow
        · simp only [plannedShard]
          rw [Int.toNat_of_nonneg hq0, if_neg (by omega)]
          omega
      · -- the last shard
        refine ⟨plannedShard p.Dir p.Length p.Threads size (p.Threads - 1).toNat, ?_, ?_, ?_⟩
        · rw [mem_planShards, hcs]
          exact ⟨(p.Threads - 1).toNat, by omega, rfl⟩
        · simp only [plannedShard]
          rw [Int.toNat_of_nonneg (by omega)]
          omega
        · simp only [plannedShard]
          rw [Int.toNat_of_nonneg (by omega), if_pos rfl]
          exact hb1
  · rw [planShards_eq_map, hcs, List.pairwise_map]
    apply List.Pairwise.imp_of_mem _ (List.pairwise_lt_range _)
    intro i j hi hj hij
    have hi' : i < p.Threads.toNat := List.mem_range.mp hi
    have hj' : j < p.Threads.toNat := List.mem_range.mp hj
    simp only [plannedShard]
    have hne : ¬ (i : Int) = p.Threads - 1 := by omega
    rw [if_neg hne]
    have h1 : ((i : Int) + 1) * size ≤ (j : Int) * size :=
      Int.mul_le_mul_of_nonneg_right (by omega) (by omega)
    have h2 : ((i : Int) + 1) * size = i * size + size := by ring
    constructor
    · omega
    · omega
  · intro s hs hidx
    obtain ⟨j, _, rfl⟩ := (mem_planShards p s).mp hs
    rw [hcs] at hidx ⊢
    simp only [plannedShard] at hidx ⊢
    rw [if_neg hidx]
    ring

/-- C1 at a 10-byte resource and 3 threads. -/
theorem C1_witness :
    (planShards (jobOf 10 3)).map shard.Index = (List.range (3 : Int).toNat).map Int.ofNat ∧
    (∀ b : Int, (∃ s ∈ planShards (jobOf 10 3), s.From ≤ b ∧ b ≤ s.To) ↔
      (0 ≤ b ∧ b ≤ (jobOf 10 3).Length - 1)) ∧
    (planShards (jobOf 10 3)).Pairwise (fun s t => s.Index < t.Index ∧ s.To < t.From) ∧
    (∀ s ∈ planShards (jobOf 10 3), s.Index ≠ (jobOf 10 3).Threads - 1 →
      s.Size = ceilDiv (jobOf 10 3).Length (jobOf 10 3).Threads) :=
  C1_plan_partitions_when_chunks_fit (jobOf 10 3) (by decide) (by decide) (by decide)
    (by decide)

/-- C1 (counterexample): for a 5-byte resource and 4 threads the planner uses chunk size 2 and
produces the ranges [0,1], [2,3], [4,5], [6,4]: byte 5 lies in the third shard
although the resource ends at byte 4, so the union of the ranges is not
[0, totalLength-1], and the last range starts after it ends. -/
theorem C1_plan_leaves_resource :
    (planShards (jobOf 5 4)).map (fun s => (s.Index, s.From, s.To)) =
      [(0, 0, 1), (1, 2, 3), (2, 4, 5), (3, 6, 4)] ∧
    (∃ s ∈ planShards (jobOf 5 4), s.From ≤ 5 ∧ 5 ≤ s.To ∧ ¬ (5 ≤ (jobOf 5 4).Length - 1)) := by
  decide

/-- C9: for a 5-byte resource and 4 threads every planned shard has
Size = To - From + 1, but the last shard is planned from byte 6 to byte 4 with
Size = -1, which is not positive; the download then fails in `merge`, whose
size check no temp file can pass for such a plan. -/
theorem C9_last_shard_size_negative :
    (planShards (jobOf 5 4)).map (fun s => (s.From, s.To, s.Size)) =
      [(0, 1, 2), (2, 3, 2), (4, 5, 2), (6, 4, -1)] ∧
    (∀ s ∈ planShards (jobOf 5 4), s.Size = s.To - s.From + 1) ∧
    ¬ (∀ s ∈ planShards (jobOf 5 4), s.Size > 0) ∧
    ((jobOf 5 4).multiTreadDown (rangeServer [1, 2, 3, 4, 5]) emptyFs).2.2 =
      some "file size failure" := by
  decide

/-! ## The file system -/

/-- Reading back the path just set. -/
theorem setFile_files_same (fs : FileSys) (p : String) (c : Option Bytes) :
    (fs.setFile p c).files p = c := by
  simp [FileSys.setFile]

/-- Setting one path leaves the others. -/
theorem setFile_files_other (fs : FileSys) (p q : String) (c : Option Bytes) (h : q ≠ p) :
    (fs.setFile p c).files q = fs.files q := by
  simp [FileSys.setFile, h]

/-- Content of a file after a write at an offset. -/
theorem writeAt_files_same (fs : FileSys) (p : String) (off : Nat) (b : Bytes) :
    (fs.writeAt p off b).files p =
      some (((fs.files p).getD []).take off ++ b ++ ((fs.files p).getD []).drop (off + b.length)) := by
  simp [FileSys.writeAt, FileSys.setFile]

/-- Writing one file leaves the others. -/
theorem writeAt_files_other (fs : FileSys) (p q : String) (off : Nat) (b : Bytes) (h : q ≠ p) :
    (fs.writeAt p off b).files q = fs.files q := by
  simp [FileSys.writeAt, FileSys.setFile, h]

/-- Removals leave the paths they do not name. -/
theorem removeAll_files_of_not_mem (ps : List String) (fs : FileSys) (q : String)
    (h : q ∉ ps) : (fs.removeAll ps).files q = fs.files q := by
  induction ps generalizing fs with
  | nil => rfl
  | cons p ps ih =>
    simp only [List.mem_cons, not_or] at h
    simp only [FileSys.removeAll]
    rw [ih _ h.2, FileSys.remove, setFile_files_other _ _ _ _ h.1]

/-- Removals delete the paths they name. -/
theorem removeAll_files_of_mem (ps : List String) (fs : FileSys) (q : String)
    (h : q ∈ ps) : (fs.removeAll ps).files q = none := by
  induction ps generalizing fs with
  | nil => cases h
  | cons p ps ih =>
    simp only [FileSys.removeAll]
    by_cases hq : q ∈ ps
    · exact ih _ hq
    · have hp : q = p := by
        rcases List.mem_cons.mp h with h | h
        · exact h
        · exact absurd h hq
      rw [removeAll_files_of_not_mem _ _ _ hq, hp, FileSys.remove, setFile_files_same]

/-! ## Configuration -/

/-- C4: on a machine with one CPU the default `Processer` is 0, a job built by
`New` has `Threads = 0`, `SetThread(0)` leaves it at 0, and `SetThread(-3)`
sets it to -3. -/
theorem C4_threads_can_be_zero :
    Processer (envWith 1) = 0 ∧
    (New (envWith 1) "http://h/f" []).Threads = 0 ∧
    ((New (envWith 1) "http://h/f" []).SetThread (envWith 1) 0).Threads = 0 ∧
    ((New (envWith 1) "http://h/f" []).SetThread (envWith 1) (-3)).Threads = -3 := by
  decide

/-! ## Fetching one shard -/

/-- The concrete range server serves ranges. -/
theorem rangeServer_servesRanges (res : Bytes) (url : String) :
    ServesRanges (rangeServer res) url res := by
  intro a b ha hab hb
  refine ⟨{ status := 206, acceptRanges := "bytes",
            contentLength := some (slice res a b).length, body := slice res a b }, ?_, ?_, rfl⟩
  · have h : 0 ≤ a ∧ a ≤ b ∧ a < res.length := ⟨ha, hab, by omega⟩
    simp only [rangeServer, if_pos h]
  · show (206 : Int) ≤ 299
    decide

/-- Length of a slice that lies inside the resource. -/
theorem slice_length (res : Bytes) (a b : Int) (ha : 0 ≤ a) (hab : a ≤ b + 1)
    (hb : b < res.length) : ((slice res a b).length : Int) = b - a + 1 := by
  unfold slice
  rw [List.length_take, List.length_drop]
  omega

/-- The first `k` bytes of a range followed by the rest of the range. -/
theorem slice_append (res : Bytes) (a : Int) (k : Nat) (b : Int) (ha : 0 ≤ a)
    (hk : a + k ≤ b + 1) :
    slice res a (a + k - 1) ++ slice res (a + k) b = slice res a b := by
  unfold slice
  have h1 : (a + k - 1 - a + 1).toNat = k := by omega
  have h2 : (a + k).toNat = a.toNat + k := by omega
  have h3 : (b - a + 1).toNat = k + (b - (a + k) + 1).toNat := by omega
  rw [h1, h2, h3, List.take_add, List.drop_drop]

/-- The shard after `shard.down`: `From` is advanced exactly when a temp file
shorter than `Size` is found. -/
theorem down_sh (srv : Server) (fs : FileSys) (s : shard) (url : String) :
    (s.down srv fs url).sh =
      match fs.stat s.FileName with
      | some size => if (size : Int) < s.Size then { s with From := s.From + size } else s
      | none => s := by
  unfold shard.down
  simp only []
  split <;> (try split) <;> (try split) <;> (try split) <;> rfl

/-- Resuming: outcome of `shard.down` on a temp file holding `c`, shorter than
`Size`, when the server accepts the request. -/
theorem down_resume (srv : Server) (fs : FileSys) (s : shard) (url : String) (c : Bytes)
    (resp : Response)
    (hfile : fs.files s.FileName = some c) (hlt : (c.length : Int) < s.Size)
    (hacc : fs.locked s.FileName = false)
    (hsrv : srv { method := Method.GET, url := url, range := some (s.From + c.length, s.To) }
      = .ok resp) (hst : resp.status ≤ 299) :
    (s.down srv fs url).sent =
        [{ method := Method.GET, url := url, range := some (s.From + c.length, s.To) }] ∧
      (s.down srv fs url).err = none ∧
      (s.down srv fs url).fs.files s.FileName = some (c ++ resp.body) := by
  have hnot : ¬ resp.status > 299 := by omega
  simp [shard.down, FileSys.stat, hfile, hlt, hsrv, hnot, FileSys.openExisting, hacc,
    writeAt_files_same]

/-- Fresh download: outcome of `shard.down` when no temp file exists and the
server accepts the request. -/
theorem down_fresh (srv : Server) (fs : FileSys) (s : shard) (url : String)
    (resp : Response)
    (hfile : fs.files s.FileName = none)
    (hacc : fs.locked s.FileName = false)
    (hsrv : srv { method := Method.GET, url := url, range := some (s.From, s.To) } = .ok resp)
    (hst : resp.status ≤ 299) :
    (s.down srv fs url).sent =
        [{ method := Method.GET, url := url, range := some (s.From, s.To) }] ∧
      (s.down srv fs url).err = none ∧
      (s.down srv fs url).fs.files s.FileName = some resp.body := by
  have hnot : ¬ resp.status > 299 := by omega
  simp [shard.down, FileSys.stat, hfile, hsrv, hnot, FileSys.create, hacc,
    writeAt_files_same, setFile_files_same]

/-- C5: against a server that answers `Range: bytes=a-b` with exactly bytes
a..b of a fixed resource, for a shard inside the resource with
Size = To - From + 1 and every k with 0 < k < Size: if the temp file holds the
first k bytes of the shard's range, `shard.down` sends exactly one request, for
the range [From + k, To], succeeds, and leaves in the temp file the old content
followed by the response; that content is the one `shard.down` produces when no
temp file existed, namely resource bytes From..To, of length Size. -/
theorem C5_resume_equals_fresh (srv : Server) (url : String) (res : Bytes)
    (s : shard) (k : Nat) (fs fs0 : FileSys)
    (hsrv : ServesRanges srv url res)
    (hfrom : 0 ≤ s.From) (hsize : s.Size = s.To - s.From + 1) (hto : s.To < res.length)
    (_hk0 : 0 < k) (hk : (k : Int) < s.Size)
    (hfile : fs.files s.FileName = some (slice res s.From (s.From + k - 1)))
    (hacc : fs.locked s.FileName = false)
    (hfile0 : fs0.files s.FileName = none) (hacc0 : fs0.locked s.FileName = false) :
    (s.down srv fs url).sent =
        [{ method := Method.GET, url := url, range := some (s.From + k, s.To) }] ∧
      (s.down srv fs url).err = none ∧
      (s.down srv fs url).fs.files s.FileName =
        some (slice res s.From (s.From + k - 1) ++ slice res (s.From + k) s.To) ∧
      (s.down srv fs0 url).err = none ∧
      (s.down srv fs url).fs.files s.FileName = (s.down srv fs0 url).fs.files s.FileName ∧
      (s.down srv fs url).fs.files s.FileName = some (slice res s.From s.To) ∧
      ((slice res s.From s.To).length : Int) = s.Size := by
  have hlen : ((slice res s.From (s.From + k - 1)).length : Int) = k := by
    rw [slice_length res _ _ hfrom (by omega) (by omega)]; omega
  obtain ⟨resp, hresp, hst, hbody⟩ := hsrv (s.From + k) s.To (by omega) (by omega) hto
  obtain ⟨resp0, hresp0, hst0, hbody0⟩ := hsrv s.From s.To hfrom (by omega) hto
  have hlen' : (slice res s.From (s.From + k - 1)).length = k := by exact_mod_cast hlen
  have hr := down_resume srv fs s url _ resp hfile (by rw [hlen]; exact hk) hacc
    (by rw [hlen']; exact hresp) hst
  have hf := down_fresh srv fs0 s url resp0 hfile0 hacc0 hresp0 hst0
  rw [hlen'] at hr
  have happ := slice_append res s.From k s.To hfrom (by omega)
  refine ⟨hr.1, hr.2.1, ?_, hf.2.1, ?_, ?_, ?_⟩
  · rw [hr.2.2, hbody]
  · rw [hr.2.2, hf.2.2, hbody, hbody0, happ]
  · rw [hr.2.2, hbody, happ]
  · rw [slice_length res _ _ hfrom (by omega) hto, hsize]

/-- C5 at the shard for bytes 4..9 of a ten-byte resource whose temp file holds
the first 2 bytes of the range: the request is for 6-9 and the file ends up
with bytes 4..9, as after a fresh download. -/
theorem C5_witness :
    (tailShard.down (rangeServer tenBytes) (emptyFs.setFile "/d/.temp.1" (some [4, 5]))
        "http://h/f").sent =
      [{ method := Method.GET, url := "http://h/f", range := some (6, 9) }] ∧
    (tailShard.down (rangeServer tenBytes) (emptyFs.setFile "/d/.temp.1" (some [4, 5]))
        "http://h/f").fs.files "/d/.temp.1" =
      (tailShard.down (rangeServer tenBytes) emptyFs "http://h/f").fs.files "/d/.temp.1" ∧
    (tailShard.down (rangeServer tenBytes) (emptyFs.setFile "/d/.temp.1" (some [4, 5]))
        "http://h/f").fs.files "/d/.temp.1" = some [4, 5, 6, 7, 8, 9] :=
  have h := C5_resume_equals_fresh (rangeServer tenBytes) "http://h/f" tenBytes tailShard 2
    (emptyFs.setFile "/d/.temp.1" (some [4, 5])) emptyFs
    (rangeServer_servesRanges tenBytes "http://h/f") (by decide) (by decide) (by decide)
    (by decide) (by decide) (by decide) (by decide) (by decide) (by decide)
  ⟨h.1, h.2.2.2.2.1, h.2.2.2.2.2.1⟩

/-- C2: a shard of planned size 4 whose temp file already holds its 4 bytes is
fetched again by `shard.down`: one request for the whole range 0-3 is sent, the
response is appended, the temp file ends up with 8 bytes, and `merge` then
rejects the shard with a size error. -/
theorem C2_complete_shard_is_refetched :
    (shard.down (rangeServer [10, 11, 12, 13, 14, 15])
        (emptyFs.setFile "/d/.temp.0" (some [10, 11, 12, 13]))
        ⟨"/d/.temp.0", 0, 0, 3, 4⟩ "http://h/f").sent =
      [⟨Method.GET, "http://h/f", some (0, 3)⟩] ∧
    (shard.down (rangeServer [10, 11, 12, 13, 14, 15])
        (emptyFs.setFile "/d/.temp.0" (some [10, 11, 12, 13]))
        ⟨"/d/.temp.0", 0, 0, 3, 4⟩ "http://h/f").err = none ∧
    (shard.down (rangeServer [10, 11, 12, 13, 14, 15])
        (emptyFs.setFile "/d/.temp.0" (some [10, 11, 12, 13]))
        ⟨"/d/.temp.0", 0, 0, 3, 4⟩ "http://h/f").fs.files "/d/.temp.0" =
      some [10, 11, 12, 13, 10, 11, 12, 13] ∧
    (packageInfo.merge { jobOf 4 1 with Shards := [⟨"/d/.temp.0", 0, 0, 3, 4⟩] }
        (shard.down (rangeServer [10, 11, 12, 13, 14, 15])
          (emptyFs.setFile "/d/.temp.0" (some [10, 11, 12, 13]))
          ⟨"/d/.temp.0", 0, 0, 3, 4⟩ "http://h/f").fs).2 = some "file size failure" := by
  decide

/-- C10: `shard.down` changes the planned shard.  Resuming the 4-byte temp file
of the shard planned as From 0, To 9, Size 10 leaves the shard with From 4, so
From differs from the plan and Size = To - From + 1 no longer holds.  When that
attempt fails and the same shard is fetched again, From moves on to 8, bytes
8-9 are requested and appended after the 4 old bytes, and bytes 4..7 are
missing from the temp file.  A second `multiTreadDown` on a job with 2 threads
appends a second plan, leaving 4 shards in the list. -/
theorem C10_plan_mutated_by_fetch :
    (wholeShard.down (rangeServer tenBytes) partialFs "http://h/f").sh.From = 4 ∧
    ¬ ((wholeShard.down (rangeServer tenBytes) partialFs "http://h/f").sh.Size =
      (wholeShard.down (rangeServer tenBytes) partialFs "http://h/f").sh.To -
      (wholeShard.down (rangeServer tenBytes) partialFs "http://h/f").sh.From + 1) ∧
    (wholeShard.down (refusingServer 10) partialFs "http://h/f").err =
      some "response code error" ∧
    (shard.down (rangeServer tenBytes)
        (wholeShard.down (refusingServer 10) partialFs "http://h/f").fs
        (wholeShard.down (refusingServer 10) partialFs "http://h/f").sh "http://h/f").sent =
      [{ method := Method.GET, url := "http://h/f", range := some (8, 9) }] ∧
    (shard.down (rangeServer tenBytes)
        (wholeShard.down (refusingServer 10) partialFs "http://h/f").fs
        (wholeShard.down (refusingServer 10) partialFs "http://h/f").sh
        "http://h/f").fs.files "/d/.temp.0" = some [0, 1, 2, 3, 8, 9] ∧
    (jobOf 6 2).Threads = 2 ∧
    (((jobOf 6 2).multiTreadDown (rangeServer [1, 2, 3, 4, 5, 6]) emptyFs).2.1.multiTreadDown
        (rangeServer [1, 2, 3, 4, 5, 6])
        ((jobOf 6 2).multiTreadDown (rangeServer [1, 2, 3, 4, 5, 6]) emptyFs).1).2.1.Shards.length
      = 4 := by
  decide

/-! ## Merging -/

/-- Writing to one file does not change what `merge` sees of another file. -/
theorem openExisting_writeAt (fs : FileSys) (dest q : String) (off : Nat) (b : Bytes)
    (h : q ≠ dest) : (fs.writeAt dest off b).openExisting q = fs.openExisting q := by
  simp [FileSys.openExisting, FileSys.writeAt, FileSys.setFile, h]

/-- Writing the destination does not change what another temp file delivers. -/
theorem delivered_writeAt (fs : FileSys) (dest : String) (off : Nat) (b : Bytes) (v : shard)
    (h : v.FileName ≠ dest) : delivered (fs.writeAt dest off b) v = delivered fs v := by
  unfold delivered
  rw [openExisting_writeAt _ _ _ _ _ h]
  rfl

/-- Writing the destination does not change the verdict on another temp file. -/
theorem mergeAccepts_writeAt (fs : FileSys) (dest : String) (off : Nat) (b : Bytes) (v : shard)
    (h : v.FileName ≠ dest) : mergeAccepts (fs.writeAt dest off b) v = mergeAccepts fs v := by
  unfold mergeAccepts
  rw [openExisting_writeAt _ _ _ _ _ h]
  rfl

/-- Creating the destination does not change what a temp file delivers. -/
theorem delivered_setFile (fs : FileSys) (dest : String) (c : Option Bytes) (v : shard)
    (h : v.FileName ≠ dest) : delivered (fs.setFile dest c) v = delivered fs v := by
  simp [delivered, FileSys.openExisting, FileSys.setFile, h, FileSys.readAll]

/-- Creating the destination does not change the verdict on a temp file. -/
theorem mergeAccepts_setFile (fs : FileSys) (dest : String) (c : Option Bytes) (v : shard)
    (h : v.FileName ≠ dest) : mergeAccepts (fs.setFile dest c) v = mergeAccepts fs v := by
  simp [mergeAccepts, FileSys.openExisting, FileSys.setFile, h, FileSys.readAll]

/-- One accepted shard: the loop copies it, registers its removal and goes on. -/
theorem mergeLoop_cons_accepted (dest : String) (fs : FileSys) (off : Nat)
    (deferred : List String) (v : shard) (vs : List shard) (h : mergeAccepts fs v = true) :
    mergeLoop dest fs off deferred (v :: vs) =
      mergeLoop dest (fs.writeAt dest off (delivered fs v)) (off + (delivered fs v).length)
        (v.FileName :: deferred) vs := by
  unfold mergeAccepts at h
  unfold delivered
  rw [mergeLoop]
  split at h
  · cases h
  · rename_i c hc
    simp only [Bool.and_eq_true, Bool.not_eq_true', decide_eq_true_eq] at h
    simp only [hc, h.1, h.2]
    simp

/-- One rejected shard: the loop stops with an error after copying what the
temp file delivered; the deferred removals run. -/
theorem mergeLoop_cons_rejected (dest : String) (fs : FileSys) (off : Nat)
    (deferred : List String) (v : shard) (vs : List shard) (d : Bytes)
    (hd : fs.files dest = some d) (h : mergeAccepts fs v = false) :
    (mergeLoop dest fs off deferred (v :: vs)).2 ≠ none ∧
      ∀ q, q ∉ deferred → (mergeLoop dest fs off deferred (v :: vs)).1.files q =
        (fs.writeAt dest off (delivered fs v)).files q := by
  unfold mergeAccepts at h
  unfold delivered
  rw [mergeLoop]
  split at h
  · rename_i hc
    simp only [hc]
    refine ⟨by simp, fun q hq => ?_⟩
    rw [removeAll_files_of_not_mem _ _ _ hq]
    by_cases hqd : q = dest
    · subst hqd
      rw [writeAt_files_same, hd]
      simp
    · rw [writeAt_files_other _ _ _ _ _ hqd]
  · rename_i c hc
    simp only [hc]
    by_cases h2 : (fs.readAll v.FileName c).2 = true
    · simp only [h2, if_true]
      exact ⟨by simp, fun q hq => removeAll_files_of_not_mem _ _ _ hq⟩
    · simp only [Bool.not_eq_true] at h2
      simp only [h2, Bool.not_false, Bool.true_and, decide_eq_false_iff_not] at h
      simp only [h2]
      split
      · rename_i h3
        exact absurd h3 (by simp)
      · exact ⟨by simp, fun q hq => removeAll_files_of_not_mem _ _ _ hq⟩

/-- Two consecutive writes at increasing offsets amount to one write. -/
theorem take_append_drop_step (d a x : Bytes) (off : Nat) (h : off ≤ d.length) :
    (d.take off ++ a ++ d.drop (off + a.length)).take (off + a.length) ++ x ++
        (d.take off ++ a ++ d.drop (off + a.length)).drop (off + a.length + x.length) =
      d.take off ++ (a ++ x) ++ d.drop (off + (a ++ x).length) := by
  have hl : (d.take off ++ a).length = off + a.length := by
    simp [List.length_take, Nat.min_eq_left h]
  have h1 : (d.take off ++ a ++ d.drop (off + a.length)).take (off + a.length) =
      d.take off ++ a := by
    rw [← hl, List.take_left']
    rfl
  have h2 : (d.take off ++ a ++ d.drop (off + a.length)).drop (off + a.length + x.length) =
      d.drop (off + (a ++ x).length) := by
    rw [← hl, List.drop_append]
    simp [List.drop_drop, hl, Nat.add_assoc, Nat.add_comm, Nat.add_left_comm]
  rw [h1, h2]
  simp [List.append_assoc]

/-- The loop on a list whose first rejected shard is `v`. -/
theorem mergeLoop_stops (dest : String) (v : shard) (post : List shard) :
    ∀ (pre : List shard) (fs : FileSys) (off : Nat) (deferred : List String) (d : Bytes),
      fs.files dest = some d → off ≤ d.length →
      (∀ w ∈ pre, mergeAccepts fs w = true) → mergeAccepts fs v = false →
      dest ∉ (pre ++ v :: post).map shard.FileName →
      (mergeLoop dest fs off deferred (pre ++ v :: post)).2 ≠ none ∧
      (∀ q, q ≠ dest → q ∉ deferred → q ∉ pre.map shard.FileName →
        (mergeLoop dest fs off deferred (pre ++ v :: post)).1.files q = fs.files q) ∧
      (dest ∉ deferred →
        (mergeLoop dest fs off deferred (pre ++ v :: post)).1.files dest =
          some (d.take off ++ ((pre.map (delivered fs)).flatten ++ delivered fs v) ++
            d.drop (off + ((pre.map (delivered fs)).flatten ++ delivered fs v).length))) := by
  intro pre
  induction pre with
  | nil =>
    intro fs off deferred d hd _ _ hv _
    have h := mergeLoop_cons_rejected dest fs off deferred v post d hd hv
    refine ⟨h.1, fun q hq hqd _ => ?_, fun hdd => ?_⟩
    · rw [List.nil_append, h.2 q hqd, writeAt_files_other _ _ _ _ _ hq]
    · rw [List.nil_append, h.2 dest hdd, writeAt_files_same, hd]
      simp
  | cons w pre ih =>
    intro fs off deferred d hd hoff hpre hv hdest
    have hw : mergeAccepts fs w = true := hpre w (List.mem_cons_self _ _)
    have hwd : w.FileName ≠ dest := by
      intro h
      apply hdest
      simp [h.symm]
    have hdest' : dest ∉ (pre ++ v :: post).map shard.FileName := by
      intro h
      apply hdest
      simp only [List.cons_append, List.map_cons, List.mem_cons]
      exact Or.inr h
    have hne : ∀ x ∈ pre ++ v :: post, x.FileName ≠ dest := by
      intro x hx h
      apply hdest'
      rw [← h]
      exact List.mem_map_of_mem _ hx
    have hd1 : (fs.writeAt dest off (delivered fs w)).files dest =
        some (d.take off ++ delivered fs w ++ d.drop (off + (delivered fs w).length)) := by
      rw [writeAt_files_same, hd]
      rfl
    have hoff1 : off + (delivered fs w).length ≤
        (d.take off ++ delivered fs w ++ d.drop (off + (delivered fs w).length)).length := by
      simp [List.length_take, Nat.min_eq_left hoff]
    have hpre1 : ∀ x ∈ pre, mergeAccepts (fs.writeAt dest off (delivered fs w)) x = true := by
      intro x hx
      rw [mergeAccepts_writeAt _ _ _ _ _ (hne x (List.mem_append_left _ hx))]
      exact hpre x (List.mem_cons_of_mem _ hx)
    have hv1 : mergeAccepts (fs.writeAt dest off (delivered fs w)) v = false := by
      rw [mergeAccepts_writeAt _ _ _ _ _
        (hne v (List.mem_append_right _ (List.mem_cons_self _ _)))]
      exact hv
    have hmap : pre.map (delivered (fs.writeAt dest off (delivered fs w))) =
        pre.map (delivered fs) := by
      apply List.map_congr_left
      intro x hx
      exact delivered_writeAt _ _ _ _ _ (hne x (List.mem_append_left _ hx))
    have hdv : delivered (fs.writeAt dest off (delivered fs w)) v = delivered fs v :=
      delivered_writeAt _ _ _ _ _ (hne v (List.mem_append_right _ (List.mem_cons_self _ _)))
    have h := ih (fs.writeAt dest off (delivered fs w)) (off + (delivered fs w).length)
      (w.FileName :: deferred) _ hd1 hoff1 hpre1 hv1 hdest'
    rw [List.cons_append, mergeLoop_cons_accepted dest fs off deferred w _ hw]
    refine ⟨h.1, fun q hq hqd hqp => ?_, fun hdd => ?_⟩
    · simp only [List.map_cons, List.mem_cons, not_or] at hqp
      rw [h.2.1 q hq (by simp [hqp.1, hqd]) hqp.2, writeAt_files_other _ _ _ _ _ hq]
    · rw [h.2.2 (by simp [hdd, Ne.symm hwd]), hmap, hdv, List.map_cons, List.flatten_cons,
        take_append_drop_step d _ _ off hoff, List.append_assoc (delivered fs w)]

/-- The loop on a list of accepted shards. -/
theorem mergeLoop_accepts (dest : String) :
    ∀ (vs : List shard) (fs : FileSys) (off : Nat) (deferred : List String) (d : Bytes),
      fs.files dest = some d → off ≤ d.length →
      (∀ w ∈ vs, mergeAccepts fs w = true) →
      dest ∉ vs.map shard.FileName →
      (mergeLoop dest fs off deferred vs).2 = none ∧
      (∀ q, q ≠ dest → q ∉ deferred → q ∉ vs.map shard.FileName →
        (mergeLoop dest fs off deferred vs).1.files q = fs.files q) ∧
      (∀ q, q ∈ deferred ∨ q ∈ vs.map shard.FileName →
        (mergeLoop dest fs off deferred vs).1.files q = none) ∧
      (dest ∉ deferred →
        (mergeLoop dest fs off deferred vs).1.files dest =
          some (d.take off ++ (vs.map (delivered fs)).flatten ++
            d.drop (off + ((vs.map (delivered fs)).flatten).length))) := by
  intro vs
  induction vs with
  | nil =>
    intro fs off deferred d hd _ _ _
    simp only [mergeLoop, List.map_nil, List.flatten_nil, List.append_nil, List.length_nil,
      Nat.add_zero, List.take_append_drop, List.not_mem_nil, or_false]
    refine ⟨trivial, fun q _ hqd _ => removeAll_files_of_not_mem _ _ _ hqd,
      fun q hq => removeAll_files_of_mem _ _ _ hq, fun hdd => ?_⟩
    rw [removeAll_files_of_not_mem _ _ _ hdd, hd]
  | cons w vs ih =>
    intro fs off deferred d hd hoff hall hdest
    have hw : mergeAccepts fs w = true := hall w (List.mem_cons_self _ _)
    have hwd : w.FileName ≠ dest := by
      intro h
      apply hdest
      simp [h.symm]
    have hdest' : dest ∉ vs.map shard.FileName := by
      intro h
      apply hdest
      simp only [List.map_cons, List.mem_cons]
      exact Or.inr h
    have hne : ∀ x ∈ vs, x.FileName ≠ dest := by
      intro x hx h
      apply hdest'
      rw [← h]
      exact List.mem_map_of_mem _ hx
    have hd1 : (fs.writeAt dest off (delivered fs w)).files dest =
        some (d.take off ++ delivered fs w ++ d.drop (off + (delivered fs w).length)) := by
      rw [writeAt_files_same, hd]
      rfl
    have hoff1 : off + (delivered fs w).length ≤
        (d.take off ++ delivered fs w ++ d.drop (off + (delivered fs w).length)).length := by
      simp [List.length_take, Nat.min_eq_left hoff]
    have hall1 : ∀ x ∈ vs, mergeAccepts (fs.writeAt dest off (delivered fs w)) x = true := by
      intro x hx
      rw [mergeAccepts_writeAt _ _ _ _ _ (hne x hx)]
      exact hall x (List.mem_cons_of_mem _ hx)
    have hmap : vs.map (delivered (fs.writeAt dest off (delivered fs w))) =
        vs.map (delivered fs) := by
      apply List.map_congr_left
      intro x hx
      exact delivered_writeAt _ _ _ _ _ (hne x hx)
    have h := ih (fs.writeAt dest off (delivered fs w)) (off + (delivered fs w).length)
      (w.FileName :: deferred) _ hd1 hoff1 hall1 hdest'
    rw [mergeLoop_cons_accepted dest fs off deferred w _ hw]
    refine ⟨h.1, fun q hq hqd hqp => ?_, fun q hq => ?_, fun hdd => ?_⟩
    · simp only [List.map_cons, List.mem_cons, not_or] at hqp
      rw [h.2.1 q hq (by simp [hqp.1, hqd]) hqp.2, writeAt_files_other _ _ _ _ _ hq]
    · apply h.2.2.1
      simp only [List.map_cons, List.mem_cons] at hq ⊢
      tauto
    · rw [h.2.2.2 (by simp [hdd, Ne.symm hwd]), hmap, List.map_cons, List.flatten_cons,
        take_append_drop_step d _ _ off hoff]

/-- A list with a rejected shard splits at its first rejected shard. -/
theorem exists_first_rejected (fs : FileSys) :
    ∀ l : List shard, (∃ v ∈ l, mergeAccepts fs v = false) →
      ∃ pre v post, l = pre ++ v :: post ∧ (∀ w ∈ pre, mergeAccepts fs w = true) ∧
        mergeAccepts fs v = false := by
  intro l
  induction l with
  | nil =>
    rintro ⟨v, hv, _⟩
    cases hv
  | cons a l ih =>
    rintro ⟨v, hv, hrej⟩
    by_cases ha : mergeAccepts fs a = true
    · have hvl : v ∈ l := by
        rcases List.mem_cons.mp hv with h | h
        · rw [h, ha] at hrej
          cases hrej
        · exact h
      obtain ⟨pre, x, post, hl, hpre, hx⟩ := ih ⟨v, hvl, hrej⟩
      refine ⟨a :: pre, x, post, by rw [hl]; rfl, ?_, hx⟩
      intro w hw
      rcases List.mem_cons.mp hw with h | h
      · rw [h]; exact ha
      · exact hpre w h
    · refine ⟨[], a, l, rfl, ?_, by simpa using ha⟩
      intro w hw
      cases hw

/-- Opening the destination when it is not locked: the file exists afterwards
with its old content, and nothing else changes. -/
theorem openCreate_unlocked (fs : FileSys) (dest : String) (h : fs.locked dest = false) :
    ∃ fs1, fs.openCreate dest = some fs1 ∧
      fs1.files dest = some ((fs.files dest).getD []) ∧
      (∀ q, q ≠ dest → fs1.files q = fs.files q) ∧
      (∀ v : shard, v.FileName ≠ dest →
        mergeAccepts fs1 v = mergeAccepts fs v ∧ delivered fs1 v = delivered fs v) := by
  unfold FileSys.openCreate
  simp only [h, Bool.false_eq_true, if_false]
  cases hf : fs.files dest with
  | none =>
    refine ⟨_, rfl, ?_, ?_, ?_⟩
    · rw [setFile_files_same]; rfl
    · intro q hq
      exact setFile_files_other _ _ _ _ hq
    · intro v hv
      exact ⟨mergeAccepts_setFile _ _ _ _ hv, delivered_setFile _ _ _ _ hv⟩
  | some c =>
    exact ⟨_, rfl, by rw [hf]; rfl, fun _ _ => rfl, fun _ _ => ⟨rfl, rfl⟩⟩

/-- C7 (amended): for shards whose temp file names are pairwise distinct and
differ from the destination path, `merge` returns an error if and only if the
destination cannot be opened or some shard's temp file cannot be opened or
copied or delivers a number of bytes different from the shard's Size.  When the
destination can be opened and `v` is the first such shard, `merge` returns an
error, the destination holds what the shards before `v` and `v` itself
delivered, written over its old content, so no shard after `v` is copied, and
the temp files of `v` and of every later shard are as they were. -/
theorem C7_merge_error_iff_and_stops (p : packageInfo) (fs : FileSys)
    (hnodup : (p.Shards.map shard.FileName).Nodup)
    (hdest : p.GetPath ∉ p.Shards.map shard.FileName) :
    ((p.merge fs).2 ≠ none ↔
      (fs.locked p.GetPath = true ∨ ∃ v ∈ p.Shards, mergeAccepts fs v = false)) ∧
    ∀ pre v post, p.Shards = pre ++ v :: post → fs.locked p.GetPath = false →
      (∀ w ∈ pre, mergeAccepts fs w = true) → mergeAccepts fs v = false →
      (p.merge fs).2 ≠ none ∧
      (p.merge fs).1.files p.GetPath =
        some (overlay ((fs.files p.GetPath).getD [])
          ((pre.map (delivered fs)).flatten ++ delivered fs v)) ∧
      ∀ w ∈ v :: post, (p.merge fs).1.files w.FileName = fs.files w.FileName := by
  have hne : ∀ x ∈ p.Shards, x.FileName ≠ p.GetPath := by
    intro x hx h
    apply hdest
    rw [← h]
    exact List.mem_map_of_mem _ hx
  -- the behaviour at the first rejected shard
  have hstop : ∀ pre v post, p.Shards = pre ++ v :: post → fs.locked p.GetPath = false →
      (∀ w ∈ pre, mergeAccepts fs w = true) → mergeAccepts fs v = false →
      (p.merge fs).2 ≠ none ∧
      (p.merge fs).1.files p.GetPath =
        some (overlay ((fs.files p.GetPath).getD [])
          ((pre.map (delivered fs)).flatten ++ delivered fs v)) ∧
      ∀ w ∈ v :: post, (p.merge fs).1.files w.FileName = fs.files w.FileName := by
    intro pre v post hsplit hlock hpre hv
    obtain ⟨fs1, hopen, hd1, hother, hsame⟩ := openCreate_unlocked fs p.GetPath hlock
    have hmerge : p.merge fs = mergeLoop p.GetPath fs1 0 [] (pre ++ v :: post) := by
      unfold packageInfo.merge
      simp only []
      change (match fs.openCreate p.GetPath with
        | none => (fs, some "open failed")
        | some fs1 => mergeLoop p.GetPath fs1 0 [] p.Shards) = _
      rw [hopen, hsplit]
    have hpre1 : ∀ w ∈ pre, mergeAccepts fs1 w = true := by
      intro w hw
      rw [(hsame w (hne w (by rw [hsplit]; exact List.mem_append_left _ hw))).1]
      exact hpre w hw
    have hvin : v ∈ p.Shards := by
      rw [hsplit]; exact List.mem_append_right _ (List.mem_cons_self _ _)
    have hv1 : mergeAccepts fs1 v = false := by
      rw [(hsame v (hne v hvin)).1]; exact hv
    have hdest1 : p.GetPath ∉ (pre ++ v :: post).map shard.FileName := by
      rw [← hsplit]; exact hdest
    have h := mergeLoop_stops p.GetPath v post pre fs1 0 [] _ hd1 (Nat.zero_le _) hpre1 hv1 hdest1
    have hmap : pre.map (delivered fs1) = pre.map (delivered fs) := by
      apply List.map_congr_left
      intro x hx
      exact (hsame x (hne x (by rw [hsplit]; exact List.mem_append_left _ hx))).2
    rw [hmerge]
    refine ⟨h.1, ?_, ?_⟩
    · rw [h.2.2 (List.not_mem_nil _), hmap, (hsame v (hne v hvin)).2]
      simp [overlay]
    · intro w hw
      have hwin : w ∈ p.Shards := by
        rw [hsplit]; exact List.mem_append_right _ hw
      have hnd : (pre.map shard.FileName ++ (v :: post).map shard.FileName).Nodup := by
        rw [← List.map_append, ← hsplit]; exact hnodup
      have hwpre : w.FileName ∉ pre.map shard.FileName := by
        intro hmem
        exact (List.nodup_append.mp hnd).2.2 hmem (List.mem_map_of_mem _ hw)
      rw [h.2.1 w.FileName (hne w hwin) (List.not_mem_nil _) hwpre, hother _ (hne w hwin)]
  refine ⟨⟨?_, ?_⟩, hstop⟩
  · intro herr
    by_contra hcon
    simp only [not_or, not_exists, not_and, Bool.not_eq_true, Bool.not_eq_false] at hcon
    obtain ⟨hlock, hall⟩ := hcon
    obtain ⟨fs1, hopen, hd1, _, hsame⟩ := openCreate_unlocked fs p.GetPath hlock
    have hall1 : ∀ w ∈ p.Shards, mergeAccepts fs1 w = true := by
      intro w hw
      rw [(hsame w (hne w hw)).1]
      exact hall w hw
    have h := mergeLoop_accepts p.GetPath p.Shards fs1 0 [] _ hd1 (Nat.zero_le _) hall1 hdest
    apply herr
    change (match fs.openCreate p.GetPath with
      | none => (fs, some "open failed")
      | some fs1 => mergeLoop p.GetPath fs1 0 [] p.Shards).2 = none
    rw [hopen]
    exact h.1
  · rintro (hlock | hrej)
    · change (match fs.openCreate p.GetPath with
        | none => (fs, some "open failed")
        | some fs1 => mergeLoop p.GetPath fs1 0 [] p.Shards).2 ≠ none
      simp [FileSys.openCreate, hlock]
    · by_cases hlock : fs.locked p.GetPath = true
      · change (match fs.openCreate p.GetPath with
          | none => (fs, some "open failed")
          | some fs1 => mergeLoop p.GetPath fs1 0 [] p.Shards).2 ≠ none
        simp [FileSys.openCreate, hlock]
      · obtain ⟨pre, v, post, hsplit, hpre, hv⟩ := exists_first_rejected fs p.Shards hrej
        exact (hstop pre v post hsplit (by simpa using hlock) hpre hv).1

/-- When the destination can be opened and every shard passes, `merge`
returns nil, the destination holds the concatenation of the temp files in list
order written over its old content, and the temp files are removed. -/
theorem merge_all_accepted (p : packageInfo) (fs : FileSys)
    (hdest : p.GetPath ∉ p.Shards.map shard.FileName)
    (hlock : fs.locked p.GetPath = false)
    (hall : ∀ v ∈ p.Shards, mergeAccepts fs v = true) :
    (p.merge fs).2 = none ∧
    (p.merge fs).1.files p.GetPath =
      some (overlay ((fs.files p.GetPath).getD []) (p.Shards.map (delivered fs)).flatten) ∧
    ∀ v ∈ p.Shards, (p.merge fs).1.files v.FileName = none := by
  have hne : ∀ x ∈ p.Shards, x.FileName ≠ p.GetPath := by
    intro x hx h
    apply hdest
    rw [← h]
    exact List.mem_map_of_mem _ hx
  obtain ⟨fs1, hopen, hd1, _, hsame⟩ := openCreate_unlocked fs p.GetPath hlock
  have hall1 : ∀ w ∈ p.Shards, mergeAccepts fs1 w = true := by
    intro w hw
    rw [(hsame w (hne w hw)).1]
    exact hall w hw
  have hmap : p.Shards.map (delivered fs1) = p.Shards.map (delivered fs) := by
    apply List.map_congr_left
    intro x hx
    exact (hsame x (hne x hx)).2
  have h := mergeLoop_accepts p.GetPath p.Shards fs1 0 [] _ hd1 (Nat.zero_le _) hall1 hdest
  have hmerge : p.merge fs = mergeLoop p.GetPath fs1 0 [] p.Shards := by
    change (match fs.openCreate p.GetPath with
      | none => (fs, some "open failed")
      | some fs1 => mergeLoop p.GetPath fs1 0 [] p.Shards) = _
    rw [hopen]
  rw [hmerge]
  refine ⟨h.1, ?_, ?_⟩
  · rw [h.2.2.2 (List.not_mem_nil _), hmap]
    simp [overlay]
  · intro v hv
    exact h.2.2.1 v.FileName (Or.inr (List.mem_map_of_mem _ hv))

/-- C7 (counterexample): with three complete temp files and a destination that
cannot be opened, `merge` returns an error although every shard passes all
checks of the loop. -/
theorem C7_counterexample_destination_locked :
    (packageInfo.merge { jobOf 6 3 with Shards := threeShards } lockedDestFs).2 ≠ none ∧
    ∀ v ∈ threeShards, mergeAccepts lockedDestFs v = true := by
  decide

/-- C7 at three shards where the temp file of the middle one is a byte short:
`merge` fails, the destination holds the bytes of the first shard and the byte
of the second, and the temp files of the second and third shard are as they
were. -/
theorem C7_witness :
    (packageInfo.merge { jobOf 6 3 with Shards := threeShards } shortMiddleFs).2 ≠ none ∧
    (packageInfo.merge { jobOf 6 3 with Shards := threeShards } shortMiddleFs).1.files "/d/f" =
      some [1, 2, 3] ∧
    ∀ w ∈ [(⟨"/d/.temp.1", 1, 2, 3, 2⟩ : shard), ⟨"/d/.temp.2", 2, 4, 5, 2⟩],
      (packageInfo.merge { jobOf 6 3 with Shards := threeShards } shortMiddleFs).1.files
        w.FileName = shortMiddleFs.files w.FileName :=
  (C7_merge_error_iff_and_stops { jobOf 6 3 with Shards := threeShards } shortMiddleFs
    (by decide) (by decide)).2 [⟨"/d/.temp.0", 0, 0, 1, 2⟩] ⟨"/d/.temp.1", 1, 2, 3, 2⟩
    [⟨"/d/.temp.2", 2, 4, 5, 2⟩] rfl (by decide) (by decide) (by decide)

/-- C6: with a destination file that already holds 6 bytes and one shard whose
temp file holds the 2 planned bytes, `merge` returns nil and the destination
holds the 2 shard bytes followed by the last 4 old bytes: it was not
truncated. -/
theorem C6_merge_keeps_old_tail :
    (packageInfo.merge { jobOf 2 1 with Shards := [⟨"/d/.temp.0", 0, 0, 1, 2⟩] }
        ((emptyFs.setFile "/d/f" (some [9, 9, 9, 9, 9, 9])).setFile "/d/.temp.0"
          (some [1, 2]))).2 = none ∧
    (packageInfo.merge { jobOf 2 1 with Shards := [⟨"/d/.temp.0", 0, 0, 1, 2⟩] }
        ((emptyFs.setFile "/d/f" (some [9, 9, 9, 9, 9, 9])).setFile "/d/.temp.0"
          (some [1, 2]))).1.files "/d/f" = some [1, 2, 9, 9, 9, 9] := by
  decide

/-! ## The entry point -/

/-- C3: `Download` returns nil although a step failed.  (1) On the
single-stream path with a broken connection `sigleDown` returns an error and
`Download` returns nil.  (2) On the parallel path against a server refusing
every ranged request both workers and `multiTreadDown` (through `merge`) return
errors and `Download` returns nil. -/
theorem C3_download_drops_errors :
    ((jobOf 0 2).sigleDown (envWith 4) brokenGetServer emptyFs).2 = some "connection reset" ∧
    ((jobOf 0 2).Download (envWith 4) brokenGetServer emptyFs).2.2 = none ∧
    (downAll (refusingServer 6) "http://h/f" emptyFs (planShards (jobOf 6 2))).errs =
      [some "response code error", some "response code error"] ∧
    ((jobOf 6 2).multiTreadDown (refusingServer 6) emptyFs).2.2 = some "open failed" ∧
    ((jobOf 0 2).Download (envWith 4) (refusingServer 6) emptyFs).2.2 = none := by
  decide

/-- C8: the job of the repository's test (`New(url, "tmp")`, run in `/home/u`)
against a server without range support: `Download` returns nil, the body is
written to `/home/u/fdm.deb` in the working directory, and no file exists at
the path `/home/u/tmp/fdm.deb` returned by `GetPath`. -/
theorem C8_single_stream_writes_to_cwd :
    (New (envWith 4) "https://h/6/latest/fdm.deb" ["tmp"]).GetPath = "/home/u/tmp/fdm.deb" ∧
    ((New (envWith 4) "https://h/6/latest/fdm.deb" ["tmp"]).Download (envWith 4)
        (plainServer [1, 2, 3]) emptyFs).2.2 = none ∧
    ((New (envWith 4) "https://h/6/latest/fdm.deb" ["tmp"]).Download (envWith 4)
        (plainServer [1, 2, 3]) emptyFs).1.files "/home/u/tmp/fdm.deb" = none ∧
    ((New (envWith 4) "https://h/6/latest/fdm.deb" ["tmp"]).Download (envWith 4)
        (plainServer [1, 2, 3]) emptyFs).1.files "/home/u/fdm.deb" = some [1, 2, 3] := by
  decide

end Download
